import Mathlib

/-!
# auto-index.js: the CloudFront viewer-request function `handler`

A shallow embedding of `src/auto-index.js` and proofs of its properties.

JavaScript is dynamically typed, so the `uri` property of the request is a
`Value`; a method call on a value that is not a string throws a `TypeError`,
and the function then has no return value. Strings are Lean strings (sequences
of Unicode characters); the two searched strings `'/'` and `'.'` are single
characters, so searching by character position agrees with searching by code
unit. The in-place update `request.uri += s` is a functional record update of
the request that is returned.
-/

namespace AutoIndex

/-- The JavaScript values a `uri` property can hold in this model: the
primitive values without numbers, and strings. -/
inductive Value where
  | undefined : Value
  | null : Value
  | boolean (b : Bool) : Value
  | string (s : String) : Value
  deriving DecidableEq

/-- The exceptions the function can raise. -/
inductive JSError where
  | typeError : JSError
  deriving DecidableEq

/-- The request object: the `uri` property the function reads and writes,
and all remaining properties (method, querystring, headers, cookies, ...)
kept together as `rest`. -/
structure Request (ρ : Type) where
  uri : Value
  rest : ρ

/-- The event object: its `request` property and all remaining properties
(version, context, viewer, ...). -/
structure Event (ρ ε : Type) where
  request : Request ρ
  rest : ε

/-- `String.prototype.endsWith(searchString)` on two strings, with the end
position left at its default, the length of the string: the substring of
the last `searchLength` characters is compared with `searchString`. -/
def stringEndsWith (s searchString : String) : Bool :=
  let len := s.data.length
  let searchLength := searchString.data.length
  if searchLength ≤ len then
    s.data.drop (len - searchLength) == searchString.data
  else
    false

/-- `String.prototype.includes(searchString)` on two strings, with the start
position left at its default 0: some position `i` has `searchString` as the
substring of `s` that starts there. -/
def stringIncludes (s searchString : String) : Bool :=
  let len := s.data.length
  let searchLength := searchString.data.length
  (List.range (len + 1)).any fun i =>
    decide (i + searchLength ≤ len) &&
      (s.data.drop i).take searchLength == searchString.data

/-- The method call `v.endsWith(searchString)`: defined on strings; on
`undefined` and `null` the property access throws, on a boolean the property
is `undefined` and calling it throws. -/
def endsWith (v : Value) (searchString : String) : Except JSError Bool :=
  match v with
  | .string s => .ok (stringEndsWith s searchString)
  | _ => .error .typeError

/-- The method call `v.includes(searchString)`, as `endsWith`. -/
def includes (v : Value) (searchString : String) : Except JSError Bool :=
  match v with
  | .string s => .ok (stringIncludes s searchString)
  | _ => .error .typeError

/-- `ToString` on the values of the model. -/
def toJSString (v : Value) : String :=
  match v with
  | .undefined => "undefined"
  | .null => "null"
  | .boolean true => "true"
  | .boolean false => "false"
  | .string s => s

/-- The value of `v + s` for a string literal `s`: as one operand is a
string, the other is converted to a string and the two are concatenated. -/
def addString (v : Value) (s : String) : Value :=
  .string (toJSString v ++ s)

/-- The function `handler` of `auto-index.js`.
```
function handler(event) {
  var request = event.request;
  var uri = request.uri;
  if (uri.endsWith('/')) { request.uri += 'index.html'; }
  else if (!uri.includes('.')) { request.uri += '/index.html'; }
  return request;
}
``` -/
def handler {ρ ε : Type} (event : Event ρ ε) : Except JSError (Request ρ) :=
  let request := event.request
  let uri := request.uri
  match endsWith uri "/" with
  | .error e => .error e
  | .ok true => .ok { request with uri := addString request.uri "index.html" }
  | .ok false =>
    match includes uri "." with
    | .error e => .error e
    | .ok false => .ok { request with uri := addString request.uri "/index.html" }
    | .ok true => .ok request

/-- The event passed to a further invocation after `handler` returned
`request`: the same event carrying the returned request. -/
def withRequest {ρ ε : Type} (event : Event ρ ε) (request : Request ρ) : Event ρ ε :=
  { event with request := request }

/-- The request after `n` successive invocations of `handler`, each one
receiving the request the previous one returned. -/
def handlerIter {ρ ε : Type} : Nat → Event ρ ε → Except JSError (Request ρ)
  | 0, event => .ok event.request
  | n + 1, event =>
    match handlerIter n event with
    | .error e => .error e
    | .ok request => handler (withRequest event request)

/-- An event whose request has the string `u` as `uri` and no further data. -/
def uriEvent (u : String) : Event Unit Unit :=
  { request := { uri := .string u, rest := () }, rest := () }

/-! ## The two string searches -/

theorem stringEndsWith_iff_ending (s t : String) :
    stringEndsWith s t = true ↔ t.data <:+ s.data := by
  unfold stringEndsWith
  constructor
  · intro h
    by_cases hle : t.data.length ≤ s.data.length
    · simp only [hle, if_true, beq_iff_eq] at h
      exact List.suffix_iff_eq_drop.mpr h.symm
    · simp only [hle, if_false] at h
      exact absurd h (by decide)
  · intro h
    have hle : t.data.length ≤ s.data.length := h.length_le
    simp only [hle, if_true, beq_iff_eq]
    exact (List.suffix_iff_eq_drop.mp h).symm

theorem stringIncludes_iff_substring (s t : String) :
    stringIncludes s t = true ↔ t.data <:+: s.data := by
  unfold stringIncludes
  simp only [List.any_eq_true, List.mem_range, Bool.and_eq_true, decide_eq_true_eq, beq_iff_eq]
  constructor
  · rintro ⟨i, -, -, h⟩
    refine List.infix_iff_prefix_suffix.mpr ⟨s.data.drop i, ?_, List.drop_suffix i s.data⟩
    exact List.prefix_iff_eq_take.mpr h.symm
  · rintro ⟨a, b, h⟩
    refine ⟨a.length, ?_, ?_, ?_⟩
    · have := congrArg List.length h
      simp only [List.length_append] at this
      omega
    · have := congrArg List.length h
      simp only [List.length_append] at this
      omega
    · rw [← h, List.append_assoc, List.drop_left, List.take_left]

theorem suffix_slash_iff (l : List Char) : ['/'] <:+ l ↔ l.getLast? = some '/' := by
  rw [List.getLast?_eq_some_iff]
  constructor
  · rintro ⟨a, h⟩
    exact ⟨a, h.symm⟩
  · rintro ⟨a, h⟩
    exact ⟨a, h.symm⟩

theorem substring_dot_iff (l : List Char) : ['.'] <:+: l ↔ '.' ∈ l := by
  constructor
  · rintro ⟨a, b, h⟩
    rw [← h]
    simp
  · intro h
    obtain ⟨a, b, rfl⟩ := List.append_of_mem h
    exact ⟨a, b, by simp⟩

/-- On a string, `endsWith('/')` holds exactly when the last character is `/`. -/
theorem stringEndsWith_slash (s : String) :
    stringEndsWith s "/" = true ↔ s.data.getLast? = some '/' := by
  rw [stringEndsWith_iff_ending]
  exact suffix_slash_iff s.data

/-- On a string, `includes('.')` holds exactly when some character is `.`. -/
theorem stringIncludes_dot (s : String) :
    stringIncludes s "." = true ↔ '.' ∈ s.data := by
  rw [stringIncludes_iff_substring]
  exact substring_dot_iff s.data

/-! ## The three branches of `handler` -/

theorem handler_of_slash {ρ ε : Type} (event : Event ρ ε) (u : String)
    (hu : event.request.uri = .string u) (hslash : u.data.getLast? = some '/') :
    handler event = .ok { uri := .string (u ++ "index.html"), rest := event.request.rest } := by
  have h := (stringEndsWith_slash u).mpr hslash
  simp [handler, endsWith, addString, toJSString, hu, h]

theorem handler_of_noDot {ρ ε : Type} (event : Event ρ ε) (u : String)
    (hu : event.request.uri = .string u) (hslash : u.data.getLast? ≠ some '/')
    (hdot : '.' ∉ u.data) :
    handler event = .ok { uri := .string (u ++ "/index.html"), rest := event.request.rest } := by
  have h : stringEndsWith u "/" = false := by
    rw [← Bool.not_eq_true, stringEndsWith_slash]; exact hslash
  have h' : stringIncludes u "." = false := by
    rw [← Bool.not_eq_true, stringIncludes_dot]; exact hdot
  simp [handler, endsWith, includes, addString, toJSString, hu, h, h']

theorem handler_of_dot {ρ ε : Type} (event : Event ρ ε) (u : String)
    (hu : event.request.uri = .string u) (hslash : u.data.getLast? ≠ some '/')
    (hdot : '.' ∈ u.data) :
    handler event = .ok event.request := by
  have h : stringEndsWith u "/" = false := by
    rw [← Bool.not_eq_true, stringEndsWith_slash]; exact hslash
  have h' : stringIncludes u "." = true := (stringIncludes_dot u).mpr hdot
  simp [handler, endsWith, includes, hu, h, h']

/-- A call on a request without a `uri` property throws. -/
theorem handler_undefined_uri {ρ ε : Type} (event : Event ρ ε)
    (hu : event.request.uri = .undefined) : handler event = .error .typeError := by
  simp [handler, endsWith, hu]

/-! ## Shape of the returned request -/

theorem append_left_cancel (u s t : String) (h : u ++ s = u ++ t) : s = t := by
  have h' := congrArg String.data h
  rw [String.data_append, String.data_append] at h'
  exact String.ext (List.append_cancel_left h')

theorem dot_mem_append_index (u : String) : '.' ∈ (u ++ "index.html").data := by
  rw [String.data_append]
  exact List.mem_append_right _ (by decide)

theorem dot_mem_append_slash_index (u : String) : '.' ∈ (u ++ "/index.html").data := by
  rw [String.data_append]
  exact List.mem_append_right _ (by decide)

theorem getLast_append_index (u : String) : (u ++ "index.html").data.getLast? = some 'l' := by
  rw [String.data_append, List.getLast?_append]
  rfl

theorem getLast_append_slash_index (u : String) :
    (u ++ "/index.html").data.getLast? = some 'l' := by
  rw [String.data_append, List.getLast?_append]
  rfl

/-- On a request with a string `uri`, `handler` returns a request whose `uri`
is a string with a `.` and without a final `/`, which is the old `uri`
followed by nothing or by one of the two literals. -/
theorem handler_string {ρ ε : Type} (event : Event ρ ε) (u : String)
    (hu : event.request.uri = .string u) :
    ∃ v, handler event = .ok { uri := .string v, rest := event.request.rest } ∧
      '.' ∈ v.data ∧ v.data.getLast? ≠ some '/' ∧
      ((u.data.getLast? = some '/' ∧ v = u ++ "index.html") ∨
       (u.data.getLast? ≠ some '/' ∧ '.' ∉ u.data ∧ v = u ++ "/index.html") ∨
       (u.data.getLast? ≠ some '/' ∧ '.' ∈ u.data ∧ v = u)) := by
  by_cases hslash : u.data.getLast? = some '/'
  · refine ⟨u ++ "index.html", handler_of_slash event u hu hslash, dot_mem_append_index u, ?_,
      Or.inl ⟨hslash, rfl⟩⟩
    rw [getLast_append_index]
    decide
  · by_cases hdot : '.' ∈ u.data
    · refine ⟨u, ?_, hdot, hslash, Or.inr (Or.inr ⟨hslash, hdot, rfl⟩)⟩
      rw [handler_of_dot event u hu hslash hdot, ← hu]
    · refine ⟨u ++ "/index.html", handler_of_noDot event u hu hslash hdot,
        dot_mem_append_slash_index u, ?_, Or.inr (Or.inl ⟨hslash, hdot, rfl⟩)⟩
      rw [getLast_append_slash_index]
      decide

/-! ## The rewriting rules -/

/-- C1: on a request whose `uri` is a string `u` with last character `/`,
`handler` returns a request whose `uri` is `u ++ "index.html"`, whether or not
`u` has a `.` in it. -/
theorem handler_trailing_slash {ρ ε : Type} (event : Event ρ ε) (u : String)
    (hu : event.request.uri = .string u) (hslash : u.data.getLast? = some '/') :
    ∃ r, handler event = .ok r ∧ r.uri = .string (u ++ "index.html") :=
  ⟨_, handler_of_slash event u hu hslash, rfl⟩

theorem handler_trailing_slash_witness :
    ("/".data.getLast? = some '/' ∧
      ∃ r, handler (uriEvent "/") = .ok r ∧ r.uri = .string "/index.html") ∧
    ("/blog/".data.getLast? = some '/' ∧
      ∃ r, handler (uriEvent "/blog/") = .ok r ∧ r.uri = .string "/blog/index.html") ∧
    ("/a.b/".data.getLast? = some '/' ∧
      ∃ r, handler (uriEvent "/a.b/") = .ok r ∧ r.uri = .string "/a.b/index.html") :=
  ⟨⟨rfl, handler_trailing_slash (uriEvent "/") "/" rfl rfl⟩,
   ⟨rfl, handler_trailing_slash (uriEvent "/blog/") "/blog/" rfl rfl⟩,
   ⟨rfl, handler_trailing_slash (uriEvent "/a.b/") "/a.b/" rfl rfl⟩⟩

/-- C2: on a request whose `uri` is a string `u` whose last character is not
`/` and which has no `.` in it, `handler` returns a request whose `uri` is
`u ++ "/index.html"`. -/
theorem handler_no_extension {ρ ε : Type} (event : Event ρ ε) (u : String)
    (hu : event.request.uri = .string u) (hslash : u.data.getLast? ≠ some '/')
    (hdot : '.' ∉ u.data) :
    ∃ r, handler event = .ok r ∧ r.uri = .string (u ++ "/index.html") :=
  ⟨_, handler_of_noDot event u hu hslash hdot, rfl⟩

theorem handler_no_extension_witness :
    "/about".data.getLast? ≠ some '/' ∧ '.' ∉ "/about".data ∧
      ∃ r, handler (uriEvent "/about") = .ok r ∧ r.uri = .string "/about/index.html" :=
  ⟨by decide, by decide,
    handler_no_extension (uriEvent "/about") "/about" rfl (by decide) (by decide)⟩

/-- C3: on a request whose `uri` is a string `u` whose last character is not
`/` and which has a `.` anywhere in it, in the last segment or an earlier one,
`handler` returns a request whose `uri` is `u`. -/
theorem handler_has_dot {ρ ε : Type} (event : Event ρ ε) (u : String)
    (hu : event.request.uri = .string u) (hslash : u.data.getLast? ≠ some '/')
    (hdot : '.' ∈ u.data) :
    ∃ r, handler event = .ok r ∧ r.uri = .string u :=
  ⟨_, handler_of_dot event u hu hslash hdot, hu⟩

theorem handler_has_dot_witness :
    ("/style.css".data.getLast? ≠ some '/' ∧ '.' ∈ "/style.css".data ∧
      ∃ r, handler (uriEvent "/style.css") = .ok r ∧ r.uri = .string "/style.css") ∧
    ("/v1.2/page".data.getLast? ≠ some '/' ∧ '.' ∈ "/v1.2/page".data ∧
      ∃ r, handler (uriEvent "/v1.2/page") = .ok r ∧ r.uri = .string "/v1.2/page") :=
  ⟨⟨by decide, by decide,
      handler_has_dot (uriEvent "/style.css") "/style.css" rfl (by decide) (by decide)⟩,
   ⟨by decide, by decide,
      handler_has_dot (uriEvent "/v1.2/page") "/v1.2/page" rfl (by decide) (by decide)⟩⟩

/-- C4: every request `handler` returns has all properties other than `uri`
as in the request of the event, and on an event whose request has a string
`uri` it does return such a request. -/
theorem handler_frame {ρ ε : Type} (event : Event ρ ε) :
    (∀ r, handler event = .ok r → r.rest = event.request.rest) ∧
    (∀ u, event.request.uri = .string u →
      ∃ r, handler event = .ok r ∧ r.rest = event.request.rest) := by
  have key : ∀ u, event.request.uri = .string u →
      ∃ r, handler event = .ok r ∧ r.rest = event.request.rest := by
    intro u hu
    obtain ⟨v, hv, -⟩ := handler_string event u hu
    exact ⟨_, hv, rfl⟩
  refine ⟨?_, key⟩
  intro r hr
  cases huri : event.request.uri with
  | string u =>
    obtain ⟨r', hr', hrest⟩ := key u huri
    rw [hr] at hr'
    cases hr'
    exact hrest
  | undefined => simp [handler, endsWith, huri] at hr
  | null => simp [handler, endsWith, huri] at hr
  | boolean b => simp [handler, endsWith, huri] at hr

theorem handler_frame_witness :
    ∃ r, handler
        ({ request := { uri := .string "/about", rest := ("GET", ["a=1"]) },
           rest := "viewer" } : Event (String × List String) String) = .ok r ∧
      r.rest = ("GET", ["a=1"]) ∧ r.uri = .string "/about/index.html" :=
  let event : Event (String × List String) String :=
    { request := { uri := .string "/about", rest := ("GET", ["a=1"]) }, rest := "viewer" }
  ⟨{ uri := .string "/about/index.html", rest := ("GET", ["a=1"]) }, rfl,
    (handler_frame event).1 _ rfl, rfl⟩

/-! ## Repeated application -/

/-- A request whose `uri` is a string with a `.` and without a final `/` is
returned as it is. -/
theorem handler_fixed {ρ ε : Type} (event : Event ρ ε) (v : String) (x : ρ)
    (hdot : '.' ∈ v.data) (hslash : v.data.getLast? ≠ some '/') :
    handler (withRequest event { uri := .string v, rest := x }) =
      .ok { uri := .string v, rest := x } :=
  handler_of_dot (withRequest event { uri := .string v, rest := x }) v rfl hslash hdot

theorem handlerIter_succ_of_fixed {ρ ε : Type} (event : Event ρ ε) (r : Request ρ)
    (h1 : handler event = .ok r) (h2 : handler (withRequest event r) = .ok r) :
    ∀ n, handlerIter (n + 1) event = .ok r := by
  intro n
  induction n with
  | zero =>
    have h0 : withRequest event event.request = event := rfl
    simp only [handlerIter, h0, h1]
  | succ n ih =>
    rw [handlerIter, ih]
    exact h2

/-- C5: on a request with a string `uri`, `handler` returns a request that a
further call of `handler` returns as it is, so any number `n ≥ 1` of
successive calls returns what the first call returns. -/
theorem handler_idempotent {ρ ε : Type} (event : Event ρ ε) (u : String)
    (hu : event.request.uri = .string u) :
    ∃ r, handler event = .ok r ∧ handler (withRequest event r) = .ok r ∧
      ∀ n, 1 ≤ n → handlerIter n event = .ok r := by
  obtain ⟨v, hv, hdot, hslash, -⟩ := handler_string event u hu
  have h2 := handler_fixed event v event.request.rest hdot hslash
  refine ⟨_, hv, h2, ?_⟩
  intro n hn
  obtain ⟨m, rfl⟩ : ∃ m, n = m + 1 := ⟨n - 1, by omega⟩
  exact handlerIter_succ_of_fixed event _ hv h2 m

theorem handler_idempotent_witness :
    ∃ r, handler (uriEvent "/index.html") = .ok r ∧ r.uri = .string "/index.html" ∧
      handler (withRequest (uriEvent "/index.html") r) = .ok r ∧
      handlerIter 3 (uriEvent "/index.html") = .ok r := by
  obtain ⟨r, h1, h2, h3⟩ := handler_idempotent (uriEvent "/index.html") "/index.html" rfl
  refine ⟨r, h1, ?_, h2, h3 3 (by decide)⟩
  have h : handler (uriEvent "/index.html") = .ok ⟨.string "/index.html", ()⟩ := rfl
  rw [h] at h1
  cases h1
  rfl

/-- C6, as stated, fails: it is not the case that for every string `u` with
last character `/` the second call of `handler` returns a `uri` other than
the one the first call returns. -/
theorem twice_differs_refuted :
    ¬ ∀ u : String, u.data.getLast? = some '/' →
      ∀ r₁ r₂, handler (uriEvent u) = .ok r₁ →
        handler (withRequest (uriEvent u) r₁) = .ok r₂ → r₂.uri ≠ r₁.uri := by
  intro h
  exact h "/" rfl ⟨.string "/index.html", ()⟩ ⟨.string "/index.html", ()⟩ rfl rfl rfl

/-- C6, amended: on a request whose `uri` is a string `u` with last character
`/`, the first call of `handler` returns the `uri` `u ++ "index.html"`, which
is other than `u`, and a second call returns the same `uri` as the first. -/
theorem trailing_slash_changes_once {ρ ε : Type} (event : Event ρ ε) (u : String)
    (hu : event.request.uri = .string u) (hslash : u.data.getLast? = some '/') :
    ∃ r₁ r₂, handler event = .ok r₁ ∧ handler (withRequest event r₁) = .ok r₂ ∧
      r₁.uri = .string (u ++ "index.html") ∧ r₁.uri ≠ .string u ∧ r₂.uri = r₁.uri := by
  have h1 := handler_of_slash event u hu hslash
  have h2 := handler_fixed event (u ++ "index.html") event.request.rest
    (dot_mem_append_index u) (by rw [getLast_append_index]; decide)
  refine ⟨_, _, h1, h2, rfl, ?_, rfl⟩
  intro h
  have hd : (u ++ "index.html").data.getLast? = u.data.getLast? := by
    injection h with h'
    rw [h']
  rw [getLast_append_index, hslash] at hd
  exact absurd hd (by decide)

theorem trailing_slash_changes_once_witness :
    "/blog/".data.getLast? = some '/' ∧
      ∃ r₁ r₂, handler (uriEvent "/blog/") = .ok r₁ ∧
        handler (withRequest (uriEvent "/blog/") r₁) = .ok r₂ ∧
        r₁.uri = .string "/blog/index.html" ∧ r₁.uri ≠ .string "/blog/" ∧
        r₂.uri = r₁.uri :=
  ⟨rfl, trailing_slash_changes_once (uriEvent "/blog/") "/blog/" rfl rfl⟩

/-! ## Totality, dependence on the `uri` alone, and the shape of the result -/

/-- C7: on every event whose request has a string `uri`, the empty string and
strings that do not start with `/` included, `handler` returns a request and
throws no exception. -/
theorem handler_total {ρ ε : Type} (event : Event ρ ε) (u : String)
    (hu : event.request.uri = .string u) :
    (∃ r, handler event = .ok r) ∧ ∀ e, handler event ≠ .error e := by
  obtain ⟨v, hv, -⟩ := handler_string event u hu
  refine ⟨⟨_, hv⟩, ?_⟩
  intro e he
  rw [hv] at he
  cases he

theorem handler_total_witness :
    ((∃ r, handler (uriEvent "") = .ok r) ∧ ∀ e, handler (uriEvent "") ≠ .error e) ∧
    ((∃ r, handler (uriEvent "about.html") = .ok r) ∧
      ∀ e, handler (uriEvent "about.html") ≠ .error e) :=
  ⟨handler_total (uriEvent "") "" rfl, handler_total (uriEvent "about.html") "about.html" rfl⟩

/-- C8: two events whose requests have the same `uri`, whatever their other
properties, give the same outcome for the `uri`: both calls throw, or both
return requests with the same `uri`; with a string `uri` both return. -/
theorem handler_uri_only {ρ₁ ε₁ ρ₂ ε₂ : Type} (e₁ : Event ρ₁ ε₁) (e₂ : Event ρ₂ ε₂)
    (h : e₁.request.uri = e₂.request.uri) :
    (handler e₁).map (fun r => r.uri) = (handler e₂).map (fun r => r.uri) ∧
    (∀ u, e₁.request.uri = .string u →
      ∃ r₁ r₂, handler e₁ = .ok r₁ ∧ handler e₂ = .ok r₂ ∧ r₁.uri = r₂.uri) := by
  have key : ∀ u, e₁.request.uri = .string u →
      ∃ r₁ r₂, handler e₁ = .ok r₁ ∧ handler e₂ = .ok r₂ ∧ r₁.uri = r₂.uri := by
    intro u hu
    obtain ⟨v, hv, -, -, hcase⟩ := handler_string e₁ u hu
    obtain ⟨w, hw, -, -, hcase'⟩ := handler_string e₂ u (h ▸ hu)
    refine ⟨_, _, hv, hw, ?_⟩
    have hvw : v = w := by
      rcases hcase with ⟨a, rfl⟩ | ⟨a, b, rfl⟩ | ⟨a, b, rfl⟩ <;>
        rcases hcase' with ⟨a', rfl⟩ | ⟨a', b', rfl⟩ | ⟨a', b', rfl⟩ <;>
        first | rfl | exact absurd a a' | exact absurd a' a | exact absurd b b' |
          exact absurd b' b
    rw [hvw]
  refine ⟨?_, key⟩
  cases huri : e₁.request.uri with
  | string u =>
    obtain ⟨r₁, r₂, h₁, h₂, hr⟩ := key u huri
    rw [h₁, h₂]
    exact congrArg Except.ok hr
  | undefined => simp [handler, endsWith, huri, ← h, Except.map]
  | null => simp [handler, endsWith, huri, ← h, Except.map]
  | boolean b => simp [handler, endsWith, huri, ← h, Except.map]

theorem handler_uri_only_witness :
    ∃ r₁ r₂,
      handler ({ request := { uri := .string "/about", rest := "GET" }, rest := () } :
        Event String Unit) = .ok r₁ ∧
      handler ({ request := { uri := .string "/about", rest := [1, 2] }, rest := true } :
        Event (List Nat) Bool) = .ok r₂ ∧
      r₁.uri = r₂.uri ∧ r₂.uri = .string "/about/index.html" := by
  obtain ⟨r₁, r₂, h₁, h₂, hr⟩ :=
    (handler_uri_only
      ({ request := { uri := .string "/about", rest := "GET" }, rest := () } :
        Event String Unit)
      ({ request := { uri := .string "/about", rest := [1, 2] }, rest := true } :
        Event (List Nat) Bool) rfl).2 "/about" rfl
  refine ⟨r₁, r₂, h₁, h₂, hr, ?_⟩
  have h : handler ({ request := { uri := .string "/about", rest := [1, 2] }, rest := true } :
      Event (List Nat) Bool) = .ok ⟨.string "/about/index.html", [1, 2]⟩ := rfl
  rw [h] at h₂
  cases h₂
  rfl

/-- C9: on a request whose `uri` is a string `u`, the `uri` returned is
`u ++ s` for exactly one `s` among `""`, `"index.html"` and `"/index.html"`;
when the last character of `u` is `/` it is not `u ++ "/index.html"`. -/
theorem handler_one_append {ρ ε : Type} (event : Event ρ ε) (u : String)
    (hu : event.request.uri = .string u) :
    ∃ r, handler event = .ok r ∧
      (∃! s, s ∈ ["", "index.html", "/index.html"] ∧ r.uri = .string (u ++ s)) ∧
      (u.data.getLast? = some '/' → r.uri ≠ .string (u ++ "/index.html")) := by
  obtain ⟨v, hv, -, -, hcase⟩ := handler_string event u hu
  refine ⟨_, hv, ?_, ?_⟩
  · have huniq : ∀ s t, Value.string v = .string (u ++ s) → Value.string v = .string (u ++ t) →
        t = s := by
      intro s t hs ht
      injection hs with hs
      injection ht with ht
      exact append_left_cancel u t s (ht.symm.trans hs)
    rcases hcase with ⟨-, rfl⟩ | ⟨-, -, rfl⟩ | ⟨-, -, rfl⟩
    · exact ⟨"index.html", ⟨by decide, rfl⟩, fun t ht => huniq _ t rfl ht.2⟩
    · exact ⟨"/index.html", ⟨by decide, rfl⟩, fun t ht => huniq _ t rfl ht.2⟩
    · have h0 : Value.string v = .string (v ++ "") := by rw [String.append_empty]
      exact ⟨"", ⟨by decide, h0⟩, fun t ht => huniq _ t h0 ht.2⟩
  · intro hslash h
    rcases hcase with ⟨-, rfl⟩ | ⟨a, -⟩ | ⟨a, -⟩
    · injection h with h
      exact absurd (append_left_cancel u _ _ h) (by decide)
    · exact a hslash
    · exact a hslash

theorem handler_one_append_witness :
    ∃ r, handler (uriEvent "/docs/") = .ok r ∧
      (∃! s, s ∈ ["", "index.html", "/index.html"] ∧ r.uri = .string ("/docs/" ++ s)) ∧
      ("/docs/".data.getLast? = some '/' → r.uri ≠ .string ("/docs/" ++ "/index.html")) :=
  handler_one_append (uriEvent "/docs/") "/docs/" rfl

/-- C10: on a request with a string `uri`, the `uri` that `handler` returns
is a string with a `.` in it whose last character is not `/`, and `handler`
called on the returned request returns it as it is. -/
theorem handler_output_file_like {ρ ε : Type} (event : Event ρ ε) (u : String)
    (hu : event.request.uri = .string u) :
    ∃ r v, handler event = .ok r ∧ r.uri = .string v ∧ '.' ∈ v.data ∧
      v.data.getLast? ≠ some '/' ∧ handler (withRequest event r) = .ok r := by
  obtain ⟨v, hv, hdot, hslash, -⟩ := handler_string event u hu
  exact ⟨_, v, hv, rfl, hdot, hslash, handler_fixed event v event.request.rest hdot hslash⟩

theorem handler_output_file_like_witness :
    ∃ r v, handler (uriEvent "") = .ok r ∧ r.uri = .string v ∧ '.' ∈ v.data ∧
      v.data.getLast? ≠ some '/' ∧ handler (withRequest (uriEvent "") r) = .ok r :=
  handler_output_file_like (uriEvent "") "" rfl

/-! ## With and without the trailing separator; when the `uri` changes -/

theorem getLast_append_slash (p : String) : (p ++ "/").data.getLast? = some '/' := by
  rw [String.data_append, List.getLast?_append]
  rfl

theorem append_slash_append_index (p : String) :
    (p ++ "/") ++ "index.html" = p ++ "/index.html" := by
  rw [String.append_assoc]
  rfl

theorem append_index_ne (u : String) (hslash : u.data.getLast? = some '/') :
    u ++ "index.html" ≠ u := by
  intro h
  have hl := getLast_append_index u
  rw [h, hslash] at hl
  exact absurd hl (by decide)

theorem append_slash_index_ne (u : String) (hdot : '.' ∉ u.data) :
    u ++ "/index.html" ≠ u := by
  intro h
  have hm := dot_mem_append_slash_index u
  rw [h] at hm
  exact hdot hm

/-- C11: for a string `p` with no `.` in it whose last character is not `/`,
`handler` returns the same `uri`, `p ++ "/index.html"`, on a request with
`uri` `p` and on a request with `uri` `p ++ "/"`. -/
theorem handler_slash_agnostic {ρ₁ ε₁ ρ₂ ε₂ : Type} (e₁ : Event ρ₁ ε₁) (e₂ : Event ρ₂ ε₂)
    (p : String) (h₁ : e₁.request.uri = .string p) (h₂ : e₂.request.uri = .string (p ++ "/"))
    (hslash : p.data.getLast? ≠ some '/') (hdot : '.' ∉ p.data) :
    ∃ r₁ r₂, handler e₁ = .ok r₁ ∧ handler e₂ = .ok r₂ ∧ r₁.uri = r₂.uri ∧
      r₁.uri = .string (p ++ "/index.html") := by
  refine ⟨_, _, handler_of_noDot e₁ p h₁ hslash hdot,
    handler_of_slash e₂ (p ++ "/") h₂ (getLast_append_slash p), ?_, rfl⟩
  show Value.string (p ++ "/index.html") = Value.string (p ++ "/" ++ "index.html")
  rw [append_slash_append_index]

theorem handler_slash_agnostic_witness :
    "/about".data.getLast? ≠ some '/' ∧ '.' ∉ "/about".data ∧
      ∃ r₁ r₂, handler (uriEvent "/about") = .ok r₁ ∧ handler (uriEvent "/about/") = .ok r₂ ∧
        r₁.uri = r₂.uri ∧ r₁.uri = .string "/about/index.html" :=
  ⟨by decide, by decide,
    handler_slash_agnostic (uriEvent "/about") (uriEvent "/about/") "/about" rfl rfl
      (by decide) (by decide)⟩

/-- C12: on a request whose `uri` is a string `u`, the `uri` that `handler`
returns differs from `u` exactly when the last character of `u` is `/` or `u`
has no `.` in it, and equals `u` exactly when `u` has a `.` in it and its last
character is not `/`. -/
theorem handler_changes_iff {ρ ε : Type} (event : Event ρ ε) (u : String)
    (hu : event.request.uri = .string u) :
    ∃ r, handler event = .ok r ∧
      (r.uri ≠ .string u ↔ (u.data.getLast? = some '/' ∨ '.' ∉ u.data)) ∧
      (r.uri = .string u ↔ ('.' ∈ u.data ∧ u.data.getLast? ≠ some '/')) := by
  obtain ⟨v, hv, -, -, hcase⟩ := handler_string event u hu
  have hne : ∀ w : String, w ≠ u → Value.string w ≠ Value.string u := by
    intro w hw h
    injection h with h
    exact hw h
  refine ⟨_, hv, ?_, ?_⟩
  · rcases hcase with ⟨a, rfl⟩ | ⟨a, b, rfl⟩ | ⟨a, b, rfl⟩
    · exact ⟨fun _ => Or.inl a, fun _ => hne _ (append_index_ne u a)⟩
    · exact ⟨fun _ => Or.inr b, fun _ => hne _ (append_slash_index_ne u b)⟩
    · constructor
      · intro h
        exact absurd rfl h
      · rintro (h | h)
        · exact absurd h a
        · exact absurd b h
  · rcases hcase with ⟨a, rfl⟩ | ⟨a, b, rfl⟩ | ⟨a, b, rfl⟩
    · constructor
      · intro h
        exact absurd h (hne _ (append_index_ne u a))
      · rintro ⟨-, h⟩
        exact absurd a h
    · constructor
      · intro h
        exact absurd h (hne _ (append_slash_index_ne u b))
      · rintro ⟨h, -⟩
        exact absurd h b
    · exact ⟨fun _ => ⟨b, a⟩, fun _ => rfl⟩

theorem handler_changes_iff_witness :
    (∃ r, handler (uriEvent "/about") = .ok r ∧
      (r.uri ≠ .string "/about" ↔
        ("/about".data.getLast? = some '/' ∨ '.' ∉ "/about".data)) ∧
      (r.uri = .string "/about" ↔
        ('.' ∈ "/about".data ∧ "/about".data.getLast? ≠ some '/'))) ∧
    (∃ r, handler (uriEvent "/style.css") = .ok r ∧
      (r.uri ≠ .string "/style.css" ↔
        ("/style.css".data.getLast? = some '/' ∨ '.' ∉ "/style.css".data)) ∧
      (r.uri = .string "/style.css" ↔
        ('.' ∈ "/style.css".data ∧ "/style.css".data.getLast? ≠ some '/'))) :=
  ⟨handler_changes_iff (uriEvent "/about") "/about" rfl,
   handler_changes_iff (uriEvent "/style.css") "/style.css" rfl⟩

end AutoIndex
